import Mathlib

/-!
Verification of the poker-equity frontend (`EquityCalculator.jsx`) of the
pokeranalysis repository, together with spec-modelled parts of the backend
simulation engine that are not present in the sources.

Conventions of the shallow embedding:
* A card token is a two-character JavaScript string ("Ah", "2c", ...); we model
  JavaScript strings as Lean `String`s.
* `Array.prototype.sort()` on strings compares UTF-16 code units; for the ASCII
  card tokens this is exactly comparison of `Char.toNat` sequences.  The
  comparator `(a, b) => a.cards.localeCompare(b.cards)` agrees with code-unit
  order on these ASCII digit/letter strings; both are modelled by `ltCharList`.
* A JavaScript `Map` is modelled as an association list in insertion order:
  `set` updates an existing key in place (keeping its position) and appends a
  fresh key at the end; `delete` removes the entry of the given key;
  `map.keys().next().value` is the key of the first (oldest-inserted) entry.
-/

namespace PokerAnalysis

/-- Code-unit lexicographic "less than" on character lists, the comparison
used by JavaScript string ordering for ASCII strings. -/
def ltCharList : List Char → List Char → Bool
  | [], [] => false
  | [], _ :: _ => true
  | _ :: _, [] => false
  | a :: x, b :: y => a.toNat < b.toNat || (a.toNat == b.toNat && ltCharList x y)

/-- JavaScript string "less or equal": not strictly greater. -/
def jsStrLe (a b : String) : Bool := !(ltCharList b.data a.data)

/-- JavaScript `Array.prototype.sort()` on an array of strings (a stable sort
by code-unit order; insertion sort is stable). -/
def jsSortStrings (l : List String) : List String :=
  l.insertionSort (fun a b => jsStrLe a b = true)

theorem ltCharList_cons_iff {a b : Char} {x y : List Char} :
    ltCharList (a :: x) (b :: y) = true ↔
      a.toNat < b.toNat ∨ (a.toNat = b.toNat ∧ ltCharList x y = true) := by
  simp [ltCharList]

theorem ltCharList_cons_false_iff {a b : Char} {x y : List Char} :
    ltCharList (a :: x) (b :: y) = false ↔
      ¬ a.toNat < b.toNat ∧ (a.toNat = b.toNat → ltCharList x y = false) := by
  rw [← Bool.not_eq_true, ltCharList_cons_iff]
  constructor
  · intro h
    exact ⟨fun hlt => h (Or.inl hlt),
      fun he => by
        rcases hxy : ltCharList x y with hf | ht
        · rfl
        · exact absurd (Or.inr ⟨he, hxy⟩) h⟩
  · rintro ⟨h1, h2⟩ (h | ⟨he, hl⟩)
    · exact h1 h
    · rw [h2 he] at hl
      cases hl

theorem ltCharList_irrefl (x : List Char) : ltCharList x x = false := by
  induction x with
  | nil => rfl
  | cons a x ih => simp [ltCharList, ih]

theorem ltCharList_asymm :
    ∀ x y, ltCharList x y = true → ltCharList y x = false := by
  intro x
  induction x with
  | nil =>
    intro y hy
    cases y with
    | nil => exact Bool.noConfusion hy
    | cons b t => rfl
  | cons a x ih =>
    intro y hy
    cases y with
    | nil => exact Bool.noConfusion hy
    | cons b t =>
      rw [ltCharList_cons_iff] at hy
      rw [ltCharList_cons_false_iff]
      rcases hy with h | ⟨he, hl⟩
      · exact ⟨by omega, fun hba => by omega⟩
      · exact ⟨by omega, fun _ => ih t hl⟩

theorem ltCharList_trans :
    ∀ x y z, ltCharList x y = true → ltCharList y z = true →
      ltCharList x z = true := by
  intro x
  induction x with
  | nil =>
    intro y z hxy hyz
    cases y with
    | nil => exact Bool.noConfusion hxy
    | cons b t =>
      cases z with
      | nil => exact Bool.noConfusion hyz
      | cons c u => rfl
  | cons a x ih =>
    intro y z hxy hyz
    cases y with
    | nil => exact Bool.noConfusion hxy
    | cons b t =>
      cases z with
      | nil => exact Bool.noConfusion hyz
      | cons c u =>
        rw [ltCharList_cons_iff] at hxy hyz ⊢
        rcases hxy with h | ⟨he, hl⟩
        · rcases hyz with h2 | ⟨he2, _⟩
          · exact Or.inl (by omega)
          · exact Or.inl (by omega)
        · rcases hyz with h2 | ⟨he2, hl2⟩
          · exact Or.inl (by omega)
          · exact Or.inr ⟨by omega, ih t u hl hl2⟩

theorem ltCharList_eq_of_not :
    ∀ x y, ltCharList x y = false → ltCharList y x = false → x = y := by
  intro x
  induction x with
  | nil =>
    intro y hxy _
    cases y with
    | nil => rfl
    | cons b t => exact Bool.noConfusion hxy
  | cons a x ih =>
    intro y hxy hyx
    cases y with
    | nil => exact Bool.noConfusion hyx
    | cons b t =>
      rw [ltCharList_cons_false_iff] at hxy hyx
      have hn : a.toNat = b.toNat := by omega
      have hc : a = b := Char.ext (UInt32.ext hn)
      exact congrArg₂ (· :: ·) hc (ih t (hxy.2 hn) (hyx.2 hn.symm))

instance : IsTotal String (fun a b => jsStrLe a b = true) := by
  constructor
  intro a b
  rcases h : ltCharList b.data a.data with hf | ht
  · exact Or.inl (by simp [jsStrLe, h])
  · exact Or.inr (by simp [jsStrLe, ltCharList_asymm _ _ h])

instance : IsTrans String (fun a b => jsStrLe a b = true) := by
  constructor
  intro a b c hab hbc
  simp only [jsStrLe, Bool.not_eq_true', Bool.not_eq_true] at hab hbc ⊢
  rcases hca : ltCharList c.data a.data with hf | ht
  · rfl
  · exfalso
    rcases hab' : ltCharList a.data b.data with h1 | h1
    · have heq : a.data = b.data := ltCharList_eq_of_not _ _ hab' hab
      rw [heq] at hca
      exact Bool.noConfusion (hca.symm.trans hbc)
    · have h2 := ltCharList_trans _ _ _ hca hab'
      exact Bool.noConfusion (h2.symm.trans hbc)

instance : IsAntisymm String (fun a b => jsStrLe a b = true) := by
  constructor
  intro a b hab hba
  simp only [jsStrLe, Bool.not_eq_true'] at hab hba
  have hdata := ltCharList_eq_of_not _ _ hba hab
  cases a
  cases b
  exact congrArg String.mk hdata

theorem jsSortStrings_sorted (l : List String) :
    List.Sorted (fun a b => jsStrLe a b = true) (jsSortStrings l) :=
  List.sorted_insertionSort _ l

theorem jsSortStrings_perm (l : List String) : List.Perm (jsSortStrings l) l :=
  List.perm_insertionSort _ l

theorem jsSortStrings_idem (l : List String) :
    jsSortStrings (jsSortStrings l) = jsSortStrings l :=
  List.Sorted.insertionSort_eq (jsSortStrings_sorted l)

theorem jsSortStrings_eq_of_perm {l₁ l₂ : List String} (h : List.Perm l₁ l₂) :
    jsSortStrings l₁ = jsSortStrings l₂ :=
  List.eq_of_perm_of_sorted
    ((jsSortStrings_perm l₁).trans (h.trans (jsSortStrings_perm l₂).symm))
    (jsSortStrings_sorted l₁) (jsSortStrings_sorted l₂)

/-- Decimal digits of `n`, least significant first, with explicit fuel
(`fuel > n` suffices), as ASCII characters. -/
def natDigitsRevAux : ℕ → ℕ → List Char
  | 0, _ => []
  | fuel + 1, n =>
    if n < 10 then [Char.ofNat (48 + n)]
    else Char.ofNat (48 + n % 10) :: natDigitsRevAux fuel (n / 10)

/-- JavaScript `Number.prototype.toString()` for a non-negative integer:
canonical decimal notation. -/
def jsNatRepr (n : ℕ) : String := String.mk (natDigitsRevAux (n + 1) n).reverse

/-- JavaScript `parseInt` restricted to all-digit strings (the only id strings
the component ever produces): the value of the decimal digits. -/
def jsParseInt (s : String) : ℕ :=
  s.data.foldl (fun acc c => acc * 10 + (c.toNat - 48)) 0

theorem digitChar_toNat {d : ℕ} (hd : d < 10) :
    (Char.ofNat (48 + d)).toNat = 48 + d := by
  interval_cases d <;> decide

theorem natDigitsRevAux_val :
    ∀ fuel n, n < fuel →
      List.foldr (fun c acc => acc * 10 + (c.toNat - 48)) 0
        (natDigitsRevAux fuel n) = n := by
  intro fuel
  induction fuel with
  | zero => omega
  | succ fuel ih =>
    intro n hn
    by_cases h : n < 10
    · simp [natDigitsRevAux, h, digitChar_toNat h]
    · have hdiv : n / 10 < fuel := by
        have h1 : n / 10 < n := Nat.div_lt_self (by omega) (by omega)
        omega
      have hmod : n % 10 < 10 := Nat.mod_lt _ (by omega)
      simp only [natDigitsRevAux, h, if_false, List.foldr_cons, ih _ hdiv,
        digitChar_toNat hmod]
      omega

theorem jsParseInt_jsNatRepr (n : ℕ) : jsParseInt (jsNatRepr n) = n := by
  show List.foldl (fun acc c => acc * 10 + (c.toNat - 48)) 0
      (natDigitsRevAux (n + 1) n).reverse = n
  rw [List.foldl_reverse]
  exact natDigitsRevAux_val _ _ (Nat.lt_succ_self n)

/-- A player of the `EquityCalculator` component: `{ id, name, holeCards }`. -/
structure Player where
  id : String
  name : String
  holeCards : List String
deriving DecidableEq

/-- `generateCacheKey(playersData, board, iters)` from `EquityCalculator.jsx`:
each player's hole cards are copied, sorted and joined with ","; the
single-field objects are sorted by `localeCompare` on that string and
JSON-stringified; the board is copied, sorted and joined; the parts are glued
with "|" together with the iteration count rendered in decimal. -/
def generateCacheKey (playersData : List Player) (board : List String)
    (iters : ℕ) : String :=
  let sortedPlayers :=
    jsSortStrings
      (playersData.map (fun p => String.intercalate "," (jsSortStrings p.holeCards)))
  "[" ++
      String.intercalate ","
        (sortedPlayers.map (fun s => "\x7b\"cards\":\"" ++ s ++ "\"\x7d")) ++
      "]" ++ "|" ++
    String.intercalate "," (jsSortStrings board) ++ "|" ++ jsNatRepr iters

/-- Claim C1: the spec requires the canonical cache key to preserve the
players' original relative ordering, so that scenarios assigning the same
hands to different player positions get distinguishable keys.  The code
violates this: `generateCacheKey` sorts the players by their hole-card
strings, so swapping the two players' hands yields the identical key (and a
cache hit then reports the previous scenario's per-player percentages for the
swapped request). -/
theorem generateCacheKey_collides_on_swapped_players :
    generateCacheKey
        [⟨"1", "Hero", ["Ah", "Ad"]⟩, ⟨"2", "Villain", ["2c", "7d"]⟩] [] 20000 =
      generateCacheKey
        [⟨"1", "Hero", ["2c", "7d"]⟩, ⟨"2", "Villain", ["Ah", "Ad"]⟩] [] 20000 := by
  decide

/-- Claim C9: cache-key canonicalization is idempotent: generating the key of
the scenario whose per-player hole cards and board are already in canonical
(sorted) order yields exactly the key of the original scenario. -/
theorem generateCacheKey_canonical_idem (playersData : List Player)
    (board : List String) (iters : ℕ) :
    generateCacheKey
        (playersData.map (fun p => { p with holeCards := jsSortStrings p.holeCards }))
        (jsSortStrings board) iters =
      generateCacheKey playersData board iters := by
  simp only [generateCacheKey, List.map_map, Function.comp_def, jsSortStrings_idem]

section EquityCache

variable {α : Type}

/-- JavaScript `Map.prototype.get`. -/
def jsMapGet (k : String) (c : List (String × α)) : Option α :=
  (c.find? (fun e => e.1 == k)).map (fun e => e.2)

/-- JavaScript `Map.prototype.set`: an existing key is updated in place
(keeping its position in insertion order); a fresh key is appended at the
end. -/
def jsMapSet (k : String) (v : α) (c : List (String × α)) : List (String × α) :=
  if c.any (fun e => e.1 == k) then
    c.map (fun e => if e.1 == k then (k, v) else e)
  else c ++ [(k, v)]

/-- JavaScript `Map.prototype.delete`: removes the entry of the given key. -/
def jsMapDelete (k : String) (c : List (String × α)) : List (String × α) :=
  c.eraseP (fun e => e.1 == k)

/-- `getCachedResult(key)` from `EquityCalculator.jsx`: `equityCache.get(key)`. -/
def getCachedResult (c : List (String × α)) (k : String) : Option α := jsMapGet k c

/-- `setCachedResult(key, result)` from `EquityCalculator.jsx`: if the cache
size exceeds 50, the first (oldest-inserted) key is deleted, then the new
entry is set. -/
def setCachedResult (k : String) (v : α) (c : List (String × α)) :
    List (String × α) :=
  let c₁ := if 50 < c.length then
      match c.head? with
      | some e => jsMapDelete e.1 c
      | none => c
    else c
  jsMapSet k v c₁

theorem find?_map_update (k : String) (v : α) :
    ∀ c : List (String × α), c.any (fun e => e.1 == k) = true →
      (c.map (fun e => if e.1 == k then (k, v) else e)).find?
          (fun e => e.1 == k) = some (k, v) := by
  intro c hc
  induction c with
  | nil => cases hc
  | cons e t ih =>
    rcases he : (e.1 == k) with hf | ht
    · have h2 : t.any (fun e => e.1 == k) = true := by
        simpa [List.any_cons, he] using hc
      have hhead : (if (e.1 == k) = true then (k, v) else e) = e := by
        rw [if_neg]
        simp [he]
      rw [List.map_cons, hhead, List.find?_cons_of_neg _ (by simp [he]), ih h2]
    · have hhead : (if (e.1 == k) = true then (k, v) else e) = (k, v) := by
        rw [if_pos he]
      rw [List.map_cons, hhead, List.find?_cons_of_pos _ (by simp)]

theorem jsMapGet_jsMapSet_self (k : String) (v : α) (c : List (String × α)) :
    jsMapGet k (jsMapSet k v c) = some v := by
  rw [jsMapSet]
  by_cases h : c.any (fun e => e.1 == k) = true
  · rw [if_pos h, jsMapGet, find?_map_update k v c h]
    rfl
  · rw [if_neg h]
    have hnone : c.find? (fun e => e.1 == k) = none := by
      rw [List.find?_eq_none]
      intro x hx
      rcases hb : (x.1 == k) with hf | ht
      · simp
      · exact absurd (List.any_eq_true.mpr ⟨x, hx, hb⟩) h
    rw [jsMapGet, List.find?_append, hnone]
    simp

theorem getCachedResult_setCachedResult_self (k : String) (v : α)
    (c : List (String × α)) :
    getCachedResult (setCachedResult k v c) k = some v := by
  rw [getCachedResult, setCachedResult]
  exact jsMapGet_jsMapSet_self k v _

theorem jsMapSet_length_le (k : String) (v : α) (c : List (String × α)) :
    (jsMapSet k v c).length ≤ c.length + 1 := by
  rw [jsMapSet]
  split
  · simp
  · simp

theorem setCachedResult_length_le (k : String) (v : α) (c : List (String × α))
    (h : c.length ≤ 51) : (setCachedResult k v c).length ≤ 51 := by
  rw [setCachedResult]
  by_cases h50 : 50 < c.length
  · have hne : c ≠ [] := by
      intro he
      rw [he] at h50
      simp at h50
    obtain ⟨e, c₂, rfl⟩ := List.exists_cons_of_ne_nil hne
    have hdel : jsMapDelete e.1 (e :: c₂) = c₂ := by
      rw [jsMapDelete, List.eraseP_cons_of_pos]
      simp
    simp only [if_pos h50, List.head?_cons, hdel]
    have := jsMapSet_length_le k v c₂
    simp only [List.length_cons] at h50 h
    omega
  · simp only [if_neg h50]
    have := jsMapSet_length_le k v c
    omega

/-- `isInputValid()` from `EquityCalculator.jsx`: every player must have
exactly 2 hole cards (the board is not checked). -/
def isInputValid (players : List Player) : Bool :=
  players.all (fun p => p.holeCards.length == 2)

/-- The component state that `calculateEquity` reads and writes. -/
structure CalcState (α : Type) where
  players : List Player
  boardCards : List String
  iterations : ℕ
  cache : List (String × α)
  results : Option α
deriving DecidableEq

/-- `calculateEquity()` from `EquityCalculator.jsx`.  The backend call
(`fetch` of `/api/equity/calculate`) is abstracted as an oracle from the
request fields to a response.  The returned number counts the compute/fetch
calls issued (0 or 1).  Behaviour: invalid input returns immediately; a cache
hit sets `results` from the cache and issues no fetch; otherwise one fetch
runs, the response is cached via `setCachedResult` and shown. -/
def calculateEquity (backend : List Player → List String → ℕ → α)
    (st : CalcState α) : CalcState α × ℕ :=
  if isInputValid st.players = true then
    let key := generateCacheKey st.players st.boardCards st.iterations
    match getCachedResult st.cache key with
    | some cached => ({ st with results := some cached }, 0)
    | none =>
      let data := backend st.players st.boardCards st.iterations
      ({ st with results := some data,
                 cache := setCachedResult key data st.cache }, 1)
  else (st, 0)

/-- Claim C2: when the canonical key of the request is already cached,
`calculateEquity` returns the stored result unchanged and issues no
compute/fetch call; consequently running the same request twice gives the
same displayed result the second time and the second call issues zero
fetches (zero additional simulated iterations). -/
theorem calculateEquity_hit {α : Type}
    (backend : List Player → List String → ℕ → α) (st : CalcState α) (r : α)
    (h : isInputValid st.players = true)
    (hc : getCachedResult st.cache
        (generateCacheKey st.players st.boardCards st.iterations) = some r) :
    calculateEquity backend st = ({ st with results := some r }, 0) := by
  unfold calculateEquity
  rw [if_pos h]
  simp only [hc]

theorem calculateEquity_miss {α : Type}
    (backend : List Player → List String → ℕ → α) (st : CalcState α)
    (h : isInputValid st.players = true)
    (hc : getCachedResult st.cache
        (generateCacheKey st.players st.boardCards st.iterations) = none) :
    calculateEquity backend st =
      ({ st with
          results := some (backend st.players st.boardCards st.iterations),
          cache := setCachedResult
            (generateCacheKey st.players st.boardCards st.iterations)
            (backend st.players st.boardCards st.iterations) st.cache }, 1) := by
  unfold calculateEquity
  rw [if_pos h]
  simp only [hc]

theorem calculateEquity_cache_hit_and_repeat {α : Type}
    (backend : List Player → List String → ℕ → α) (st : CalcState α)
    (h : isInputValid st.players = true) :
    (∀ r, getCachedResult st.cache
          (generateCacheKey st.players st.boardCards st.iterations) = some r →
        calculateEquity backend st = ({ st with results := some r }, 0)) ∧
    (calculateEquity backend (calculateEquity backend st).1).1.results =
        (calculateEquity backend st).1.results ∧
    (calculateEquity backend (calculateEquity backend st).1).2 = 0 := by
  refine ⟨fun r hr => calculateEquity_hit backend st r h hr, ?_⟩
  rcases hc : getCachedResult st.cache
      (generateCacheKey st.players st.boardCards st.iterations) with _ | r₀
  · rw [calculateEquity_miss backend st h hc]
    show (calculateEquity backend
        { st with
            results := some (backend st.players st.boardCards st.iterations),
            cache := setCachedResult
              (generateCacheKey st.players st.boardCards st.iterations)
              (backend st.players st.boardCards st.iterations) st.cache }).1.results =
          some (backend st.players st.boardCards st.iterations) ∧
      (calculateEquity backend
        { st with
            results := some (backend st.players st.boardCards st.iterations),
            cache := setCachedResult
              (generateCacheKey st.players st.boardCards st.iterations)
              (backend st.players st.boardCards st.iterations) st.cache }).2 = 0
    have hlook : getCachedResult
        (setCachedResult (generateCacheKey st.players st.boardCards st.iterations)
          (backend st.players st.boardCards st.iterations) st.cache)
        (generateCacheKey st.players st.boardCards st.iterations) =
        some (backend st.players st.boardCards st.iterations) :=
      getCachedResult_setCachedResult_self _ _ _
    have h2 := calculateEquity_hit backend
      { st with
          results := some (backend st.players st.boardCards st.iterations),
          cache := setCachedResult
            (generateCacheKey st.players st.boardCards st.iterations)
            (backend st.players st.boardCards st.iterations) st.cache }
      (backend st.players st.boardCards st.iterations) h hlook
    rw [h2]
    exact ⟨rfl, rfl⟩
  · rw [calculateEquity_hit backend st r₀ h hc]
    show (calculateEquity backend { st with results := some r₀ }).1.results =
          some r₀ ∧
      (calculateEquity backend { st with results := some r₀ }).2 = 0
    have h2 := calculateEquity_hit backend { st with results := some r₀ } r₀ h hc
    rw [h2]
    exact ⟨rfl, rfl⟩

/-- Witness for C2 at a concrete state: two players with fixed hole cards,
empty board and cache, a constant backend. -/
theorem calculateEquity_cache_hit_and_repeat_witness :
    (calculateEquity (fun _ _ _ => (42 : ℕ))
          (calculateEquity (fun _ _ _ => (42 : ℕ))
            ⟨[⟨"1", "Hero", ["Ah", "Ad"]⟩, ⟨"2", "Villain", ["2c", "7d"]⟩],
              [], 1000, [], none⟩).1).1.results =
      (calculateEquity (fun _ _ _ => (42 : ℕ))
          ⟨[⟨"1", "Hero", ["Ah", "Ad"]⟩, ⟨"2", "Villain", ["2c", "7d"]⟩],
            [], 1000, [], none⟩).1.results ∧
    (calculateEquity (fun _ _ _ => (42 : ℕ))
        (calculateEquity (fun _ _ _ => (42 : ℕ))
          ⟨[⟨"1", "Hero", ["Ah", "Ad"]⟩, ⟨"2", "Villain", ["2c", "7d"]⟩],
            [], 1000, [], none⟩).1).2 = 0 :=
  (calculateEquity_cache_hit_and_repeat (fun _ _ _ => (42 : ℕ))
    ⟨[⟨"1", "Hero", ["Ah", "Ad"]⟩, ⟨"2", "Villain", ["2c", "7d"]⟩],
      [], 1000, [], none⟩ (by decide)).2

set_option maxRecDepth 20000 in
/-- Claim C3 counterexample: inserting 51 distinct keys into the empty cache
with `setCachedResult` leaves 51 stored entries, because eviction only fires
when the size already exceeds 50 before the insertion.  The claimed bound of
50 entries is therefore violated. -/
theorem setCachedResult_reaches_51 :
    (((List.range 51).map jsNatRepr).foldl
        (fun c k => setCachedResult k (0 : ℕ) c) []).length = 51 := by
  decide

/-- Claim C3 (amended): after any sequence of `setCachedResult` insertions
starting from the empty cache, the cache holds at most 51 entries: the size
check `size > 50` runs before the insertion, so the 51st distinct key still
fits and only the 52nd onward trigger eviction. -/
theorem setCachedResult_bounded {α : Type} (inserts : List (String × α)) :
    ((inserts.foldl (fun c kv => setCachedResult kv.1 kv.2 c) [])).length ≤ 51 := by
  have key : ∀ (l : List (String × α)) (c : List (String × α)), c.length ≤ 51 →
      (l.foldl (fun c kv => setCachedResult kv.1 kv.2 c) c).length ≤ 51 := by
    intro l
    induction l with
    | nil => intro c hc; exact hc
    | cons kv l ih =>
      intro c hc
      exact ih _ (setCachedResult_length_le kv.1 kv.2 c hc)
  exact key inserts [] (by simp)

/-- One observable cache operation: a read (`equityCache.get`) or a write
(`setCachedResult`). -/
inductive CacheOp (α : Type) where
  | get (k : String)
  | set (k : String) (v : α)

/-- Running a sequence of cache operations; `Map.prototype.get` does not
modify the map, so reads leave the cache state unchanged. -/
def runCacheOps (ops : List (CacheOp α)) (c : List (String × α)) :
    List (String × α) :=
  ops.foldl
    (fun c op =>
      match op with
      | CacheOp.get _ => c
      | CacheOp.set k v => setCachedResult k v c) c

/-- Whether a cache operation is a write. -/
def CacheOp.isSetOp : CacheOp α → Bool
  | CacheOp.get _ => false
  | CacheOp.set _ _ => true

/-- Claim C4: on overflow `setCachedResult` evicts exactly the first entry of
the cache in insertion order — the oldest-inserted entry, since `jsMapSet`
appends fresh keys at the end and keeps existing keys in place — and reads
(`getCachedResult`) never change the cache, so interleaved reads do not
affect which entry is evicted (FIFO, not LRU). -/
theorem setCachedResult_evicts_oldest {α : Type} (c : List (String × α))
    (k : String) (v : α) (h : 50 < c.length) :
    setCachedResult k v c = jsMapSet k v (c.drop 1) ∧
    (∀ (c₂ : List (String × α)) (k₂ : String) (v₂ : α),
        c₂.any (fun e => e.1 == k₂) = false →
        jsMapSet k₂ v₂ c₂ = c₂ ++ [(k₂, v₂)]) ∧
    (∀ (ops : List (CacheOp α)) (c₀ : List (String × α)),
        runCacheOps ops c₀ = runCacheOps (ops.filter CacheOp.isSetOp) c₀) := by
  refine ⟨?_, ?_, ?_⟩
  · have hne : c ≠ [] := by
      intro he
      rw [he] at h
      simp at h
    obtain ⟨e, c₂, rfl⟩ := List.exists_cons_of_ne_nil hne
    have hdel : jsMapDelete e.1 (e :: c₂) = c₂ := by
      rw [jsMapDelete, List.eraseP_cons_of_pos]
      simp
    rw [setCachedResult]
    simp only [if_pos h, List.head?_cons, hdel, List.drop_one, List.tail_cons]
  · intro c₂ k₂ v₂ habs
    rw [jsMapSet, if_neg (by simp [habs])]
  · intro ops
    induction ops with
    | nil => intro c₀; rfl
    | cons op ops ih =>
      intro c₀
      cases op with
      | get k₃ => simpa [runCacheOps, CacheOp.isSetOp] using ih c₀
      | set k₃ v₃ => simpa [runCacheOps, CacheOp.isSetOp] using ih (setCachedResult k₃ v₃ c₀)

/-- Witness for C4 at a concrete 51-entry cache. -/
theorem setCachedResult_evicts_oldest_witness :
    setCachedResult "fresh" (0 : ℕ) ((List.range 51).map (fun i => (jsNatRepr i, 0))) =
      jsMapSet "fresh" 0 (((List.range 51).map (fun i => (jsNatRepr i, 0))).drop 1) :=
  (setCachedResult_evicts_oldest ((List.range 51).map (fun i => (jsNatRepr i, 0)))
    "fresh" 0 (by decide)).1

end EquityCache

/-- `getUsedCards()` from `EquityCalculator.jsx`: the set of card tokens used
by any player's hole cards or by the board (membership in this list models
membership in the JavaScript `Set`). -/
def getUsedCards (players : List Player) (board : List String) : List String :=
  (players.map Player.holeCards).flatten ++ board

/-- `isCardAvailable(card)` from `EquityCalculator.jsx`. -/
def isCardAvailable (players : List Player) (board : List String)
    (card : String) : Bool :=
  !((getUsedCards players board).contains card)

/-- `addPlayer()` from `EquityCalculator.jsx`: with fewer than 6 players, a
new player is appended whose id is one plus the maximum of the parsed
existing ids (the component always has at least 2 players, so `Math.max` is
over a nonempty list and equals the fold below). -/
def addPlayer (players : List Player) : List Player :=
  if players.length < 6 then
    let newId := jsNatRepr ((players.map (fun p => jsParseInt p.id)).foldl max 0 + 1)
    players ++ [{ id := newId, name := "Player " ++ newId, holeCards := [] }]
  else players

/-- `removePlayer(playerId)` from `EquityCalculator.jsx`: with more than 2
players, the players whose id equals `playerId` are filtered out. -/
def removePlayer (playerId : String) (players : List Player) : List Player :=
  if 2 < players.length then players.filter (fun p => !(p.id == playerId))
  else players

/-- `updatePlayerName(playerId, name)` from `EquityCalculator.jsx`. -/
def updatePlayerName (playerId nm : String) (players : List Player) :
    List Player :=
  players.map (fun p => if p.id == playerId then { p with name := nm } else p)

/-- The per-player update performed by `selectPlayerCard`: for the player
with the given id, a selected card is deselected (filtered out), and
otherwise the card is added only while the player holds fewer than 2 cards;
other players are untouched. -/
def selCardFn (playerId card : String) (p : Player) : Player :=
  if p.id == playerId then
    if p.holeCards.contains card then
      { p with holeCards := p.holeCards.filter (fun c => !(c == card)) }
    else if p.holeCards.length < 2 then
      { p with holeCards := p.holeCards ++ [card] }
    else p
  else p

/-- `selectPlayerCard(playerId, card)` from `EquityCalculator.jsx`. -/
def selectPlayerCard (playerId card : String) (players : List Player) :
    List Player :=
  players.map (selCardFn playerId card)

/-- `selectBoardCard(card)` from `EquityCalculator.jsx`: a selected card is
deselected, otherwise the card is added only while the board has fewer than
5 cards. -/
def selectBoardCard (card : String) (board : List String) : List String :=
  if board.contains card then board.filter (fun c => !(c == card))
  else if board.length < 5 then board ++ [card]
  else board

/-- `clearPlayerCards(playerId)` from `EquityCalculator.jsx`. -/
def clearPlayerCards (playerId : String) (players : List Player) :
    List Player :=
  players.map (fun p =>
    if p.id == playerId then { p with holeCards := [] } else p)

/-- Claim C7: whenever some player's hole-card count differs from 2,
`calculateEquity` performs no work — the state is unchanged and no
compute/fetch call is issued — and `selectPlayerCard` never raises any
player's hole-card count above 2 (position by position, the new count is at
most the maximum of 2 and the old count). -/
theorem invalid_hole_count_blocks {α : Type}
    (backend : List Player → List String → ℕ → α) (st : CalcState α)
    (h : ∃ p ∈ st.players, p.holeCards.length ≠ 2) :
    calculateEquity backend st = (st, 0) ∧
    ∀ (players : List Player) (playerId card : String),
      List.Forall₂ (fun p q => q.holeCards.length ≤ max 2 p.holeCards.length)
        players (selectPlayerCard playerId card players) := by
  constructor
  · have hinv : isInputValid st.players ≠ true := by
      intro hv
      obtain ⟨p, hp, hlen⟩ := h
      have := List.all_eq_true.mp hv p hp
      simp only [beq_iff_eq] at this
      exact hlen this
    rw [calculateEquity, if_neg hinv]
  · intro players playerId card
    rw [selectPlayerCard, List.forall₂_map_right_iff, List.forall₂_same]
    intro p _
    rw [selCardFn]
    by_cases hid : (p.id == playerId) = true
    · rw [if_pos hid]
      by_cases hct : p.holeCards.contains card = true
      · rw [if_pos hct]
        exact le_trans (List.length_filter_le _ _) (le_max_right _ _)
      · rw [if_neg hct]
        by_cases hlt : p.holeCards.length < 2
        · rw [if_pos hlt]
          simp only [List.length_append, List.length_cons, List.length_nil]
          omega
        · rw [if_neg hlt]
          exact le_max_right _ _
    · rw [if_neg hid]
      exact le_max_right _ _

/-- Witness for C7 at a concrete state whose first player holds one card. -/
theorem invalid_hole_count_blocks_witness :
    calculateEquity (fun _ _ _ => (0 : ℕ))
        ⟨[⟨"1", "Hero", ["Ah"]⟩, ⟨"2", "Villain", ["2c", "7d"]⟩],
          [], 1000, [], none⟩ =
      (⟨[⟨"1", "Hero", ["Ah"]⟩, ⟨"2", "Villain", ["2c", "7d"]⟩],
          [], 1000, [], none⟩, 0) :=
  (invalid_hole_count_blocks (fun _ _ _ => (0 : ℕ))
    ⟨[⟨"1", "Hero", ["Ah"]⟩, ⟨"2", "Villain", ["2c", "7d"]⟩], [], 1000, [], none⟩
    ⟨⟨"1", "Hero", ["Ah"]⟩, by decide, by decide⟩).1

/-- The initial players of the component: ids "1" and "2". -/
def initialPlayers : List Player :=
  [{ id := "1", name := "Hero", holeCards := [] },
   { id := "2", name := "Villain", holeCards := [] }]

/-- The id bookkeeping invariant: the ids are pairwise distinct and each id
is the canonical decimal string of its parsed value (every id the component
ever creates is produced by `toString` on a number). -/
def PlayersIdInv (players : List Player) : Prop :=
  (players.map Player.id).Nodup ∧
  ∀ p ∈ players, p.id = jsNatRepr (jsParseInt p.id)

theorem le_foldl_max_init : ∀ (l : List ℕ) (b : ℕ), b ≤ l.foldl max b := by
  intro l
  induction l with
  | nil => intro b; exact le_refl b
  | cons x l ih =>
    intro b
    exact le_trans (le_max_left b x) (ih (max b x))

theorem mem_le_foldl_max : ∀ (l : List ℕ) (a b : ℕ), a ∈ l → a ≤ l.foldl max b := by
  intro l
  induction l with
  | nil => intro a b ha; cases ha
  | cons x l ih =>
    intro a b ha
    rcases List.mem_cons.mp ha with rfl | ha
    · exact le_trans (le_max_right b a) (le_foldl_max_init l (max b a))
    · exact ih a (max b x) ha

theorem addPlayer_id_inv {players : List Player} (h : PlayersIdInv players) :
    PlayersIdInv (addPlayer players) := by
  rw [addPlayer]
  by_cases hlen : players.length < 6
  · rw [if_pos hlen]
    obtain ⟨hnd, hcan⟩ := h
    constructor
    · rw [List.map_append, List.nodup_append]
      refine ⟨hnd, List.nodup_singleton _, ?_⟩
      rw [List.map_singleton, List.disjoint_singleton]
      intro hmem
      obtain ⟨p, hp, hpid⟩ := List.mem_map.mp hmem
      have h1 : jsParseInt p.id =
          (players.map (fun p => jsParseInt p.id)).foldl max 0 + 1 := by
        rw [hpid, jsParseInt_jsNatRepr]
      have h2 : jsParseInt p.id ≤
          (players.map (fun p => jsParseInt p.id)).foldl max 0 :=
        mem_le_foldl_max _ _ _ (List.mem_map.mpr ⟨p, hp, rfl⟩)
      omega
    · intro p hp
      rcases List.mem_append.mp hp with hp | hp
      · exact hcan p hp
      · rw [List.mem_singleton.mp hp]
        rw [jsParseInt_jsNatRepr]
  · rw [if_neg hlen]
    exact h

theorem removePlayer_id_inv {players : List Player} (pid : String)
    (h : PlayersIdInv players) : PlayersIdInv (removePlayer pid players) := by
  rw [removePlayer]
  by_cases hlen : 2 < players.length
  · rw [if_pos hlen]
    obtain ⟨hnd, hcan⟩ := h
    constructor
    · exact List.Nodup.sublist ((List.filter_sublist _).map _) hnd
    · intro p hp
      exact hcan p (List.mem_of_mem_filter hp)
  · rw [if_neg hlen]
    exact h

theorem removePlayer_length_ge {players : List Player} (pid : String)
    (hnd : (players.map Player.id).Nodup) :
    players.length - 1 ≤ (players.filter (fun p => !(p.id == pid))).length := by
  induction players with
  | nil => simp
  | cons p ps ih =>
    rw [List.map_cons, List.nodup_cons] at hnd
    by_cases hid : (p.id == pid) = true
    · have hfilt : ps.filter (fun q => !(q.id == pid)) = ps := by
        rw [List.filter_eq_self]
        intro q hq
        have hpid : p.id = pid := beq_iff_eq.mp hid
        have hne : q.id ≠ pid := fun he =>
          hnd.1 (List.mem_map.mpr ⟨q, hq, by rw [he, hpid]⟩)
        simp [hne]
      rw [List.filter_cons, if_neg (by simp [hid]), hfilt]
      simp
    · rw [List.filter_cons, if_pos (by simp [hid])]
      have := ih hnd.2
      simp only [List.length_cons]
      omega

/-- One add/remove interaction: `none` is a click on "Add Player", `some pid`
a click on the remove button of player `pid`. -/
def runAddRemove (ops : List (Option String)) : List Player :=
  ops.foldl
    (fun ps op =>
      match op with
      | none => addPlayer ps
      | some pid => removePlayer pid ps) initialPlayers

/-- Claim C10: starting from the initial players with ids "1" and "2", every
sequence of `addPlayer` and `removePlayer` operations keeps the player count
between 2 and 6 and the ids pairwise distinct (`addPlayer` assigns one plus
the maximum existing numeric id, which is fresh). -/
theorem runAddRemove_ids_distinct (ops : List (Option String)) :
    2 ≤ (runAddRemove ops).length ∧ (runAddRemove ops).length ≤ 6 ∧
    ((runAddRemove ops).map Player.id).Nodup := by
  have key : ∀ (l : List (Option String)) (ps : List Player),
      2 ≤ ps.length → ps.length ≤ 6 → PlayersIdInv ps →
      2 ≤ (l.foldl (fun ps op =>
            match op with
            | none => addPlayer ps
            | some pid => removePlayer pid ps) ps).length ∧
      (l.foldl (fun ps op =>
            match op with
            | none => addPlayer ps
            | some pid => removePlayer pid ps) ps).length ≤ 6 ∧
      PlayersIdInv (l.foldl (fun ps op =>
            match op with
            | none => addPlayer ps
            | some pid => removePlayer pid ps) ps) := by
    intro l
    induction l with
    | nil => intro ps h2 h6 hinv; exact ⟨h2, h6, hinv⟩
    | cons op l ih =>
      intro ps h2 h6 hinv
      cases op with
      | none =>
        refine ih (addPlayer ps) ?_ ?_ (addPlayer_id_inv hinv)
        · rw [addPlayer]
          by_cases hlen : ps.length < 6
          · rw [if_pos hlen]
            simp only [List.length_append, List.length_cons, List.length_nil]
            omega
          · rw [if_neg hlen]
            exact h2
        · rw [addPlayer]
          by_cases hlen : ps.length < 6
          · rw [if_pos hlen]
            simp only [List.length_append, List.length_cons, List.length_nil]
            omega
          · rw [if_neg hlen]
            exact h6
      | some pid =>
        refine ih (removePlayer pid ps) ?_ ?_ (removePlayer_id_inv pid hinv)
        · rw [removePlayer]
          by_cases hlen : 2 < ps.length
          · rw [if_pos hlen]
            have := removePlayer_length_ge pid hinv.1
            omega
          · rw [if_neg hlen]
            exact h2
        · rw [removePlayer]
          by_cases hlen : 2 < ps.length
          · rw [if_pos hlen]
            exact le_trans (List.length_filter_le _ _) h6
          · rw [if_neg hlen]
            exact h6
  have hinit : PlayersIdInv initialPlayers := ⟨by decide, by decide⟩
  obtain ⟨h2, h6, hinv⟩ := key ops initialPlayers (by decide) (by decide) hinit
  exact ⟨h2, h6, hinv.1⟩

theorem flatten_map_sublist {l₁ l₂ : List Player} (h : l₁.Sublist l₂) :
    ((l₁.map Player.holeCards).flatten).Sublist
      ((l₂.map Player.holeCards).flatten) := by
  induction h with
  | slnil => exact List.Sublist.refl _
  | cons a _ ih => exact ih.trans (List.sublist_append_right _ _)
  | cons₂ a _ ih => exact List.Sublist.append_left ih _

theorem flatten_map_pointwise {f : Player → Player} {ps : List Player}
    (hf : ∀ p ∈ ps, ((f p).holeCards).Sublist p.holeCards) :
    (((ps.map f).map Player.holeCards).flatten).Sublist
      ((ps.map Player.holeCards).flatten) := by
  induction ps with
  | nil => exact List.Sublist.refl _
  | cons p ps ih =>
    simp only [List.map_cons, List.flatten_cons]
    exact List.Sublist.append (hf p (List.mem_cons_self p ps))
      (ih fun q hq => hf q (List.mem_cons_of_mem p hq))

theorem map_id_of_id_preserving {f : Player → Player}
    (hf : ∀ p, (f p).id = p.id) (ps : List Player) :
    ((ps.map f).map Player.id) = ps.map Player.id := by
  rw [List.map_map]
  exact List.map_congr_left fun p _ => hf p

theorem playersIdInv_map {f : Player → Player} (hf : ∀ p, (f p).id = p.id)
    {ps : List Player} (h : PlayersIdInv ps) : PlayersIdInv (ps.map f) := by
  refine ⟨?_, ?_⟩
  · rw [map_id_of_id_preserving hf]
    exact h.1
  · intro q hq
    obtain ⟨p, hp, rfl⟩ := List.mem_map.mp hq
    rw [hf p]
    exact h.2 p hp

theorem selCardFn_id (playerId card : String) (p : Player) :
    (selCardFn playerId card p).id = p.id := by
  rw [selCardFn]
  by_cases h1 : (p.id == playerId) = true
  · rw [if_pos h1]
    by_cases h2 : p.holeCards.contains card = true
    · rw [if_pos h2]
    · rw [if_neg h2]
      by_cases h3 : p.holeCards.length < 2
      · rw [if_pos h3]
      · rw [if_neg h3]
  · rw [if_neg h1]

theorem selectBoardCard_nodup {ps : List Player} {board : List String}
    (card : String) (hused : (getUsedCards ps board).Nodup)
    (hgate : isCardAvailable ps board card = true ∨ card ∈ board) :
    (getUsedCards ps (selectBoardCard card board)).Nodup := by
  rw [selectBoardCard]
  by_cases hct : board.contains card = true
  · rw [if_pos hct]
    exact List.Nodup.sublist
      (List.Sublist.append (List.Sublist.refl _) (List.filter_sublist _)) hused
  · rw [if_neg hct]
    by_cases hlen : board.length < 5
    · rw [if_pos hlen]
      have hnm : card ∉ getUsedCards ps board := by
        rcases hgate with h | h
        · rw [isCardAvailable, Bool.not_eq_true'] at h
          intro hmem
          have h2 : (getUsedCards ps board).contains card = true :=
            List.elem_iff.mpr hmem
          rw [h2] at h
          cases h
        · exact absurd (List.elem_iff.mpr h) hct
      rw [getUsedCards, ← List.append_assoc]
      have hmid : (((ps.map Player.holeCards).flatten ++ board) ++ card :: []).Nodup ↔
          (card :: (((ps.map Player.holeCards).flatten ++ board) ++ [])).Nodup :=
        List.nodup_middle
      rw [List.append_nil] at hmid
      rw [hmid, List.nodup_cons]
      exact ⟨by rw [getUsedCards] at hnm; exact hnm,
        by rw [getUsedCards] at hused; exact hused⟩
    · rw [if_neg hlen]
      exact hused

theorem selectPlayerCard_eq_of_absent {ps : List Player} {pid : String}
    (card : String) (h : ∀ p ∈ ps, p.id ≠ pid) :
    selectPlayerCard pid card ps = ps := by
  rw [selectPlayerCard]
  have h1 : ∀ p ∈ ps, selCardFn pid card p = id p := by
    intro p hp
    rw [selCardFn, if_neg (by simp [h p hp])]
    rfl
  rw [List.map_congr_left h1, List.map_id]

theorem selectPlayerCard_nodup {ps : List Player} {board : List String}
    (pid card : String)
    (hused : (getUsedCards ps board).Nodup)
    (hids : (ps.map Player.id).Nodup)
    (hgate : isCardAvailable ps board card = true ∨
      ∃ p ∈ ps, p.id = pid ∧ card ∈ p.holeCards) :
    (getUsedCards (selectPlayerCard pid card ps) board).Nodup := by
  by_cases hex : ∃ p ∈ ps, p.id = pid
  case neg =>
    rw [selectPlayerCard_eq_of_absent card (fun p hp he => hex ⟨p, hp, he⟩)]
    exact hused
  obtain ⟨p₀, hp₀, hpid⟩ := hex
  obtain ⟨l₁, l₂, rfl⟩ := List.append_of_mem hp₀
  rw [List.map_append, List.map_cons, List.nodup_middle, List.nodup_cons] at hids
  rw [← List.map_append] at hids
  have hnotin1 : ∀ q ∈ l₁, q.id ≠ pid := fun q hq he =>
    hids.1 (List.mem_map.mpr ⟨q, List.mem_append.mpr (Or.inl hq), by rw [he, hpid]⟩)
  have hnotin2 : ∀ q ∈ l₂, q.id ≠ pid := fun q hq he =>
    hids.1 (List.mem_map.mpr ⟨q, List.mem_append.mpr (Or.inr hq), by rw [he, hpid]⟩)
  have hmap1 : l₁.map (selCardFn pid card) = l₁ := by
    have h1 : ∀ q ∈ l₁, selCardFn pid card q = id q := by
      intro q hq
      rw [selCardFn, if_neg (by simp [hnotin1 q hq])]
      rfl
    rw [List.map_congr_left h1, List.map_id]
  have hmap2 : l₂.map (selCardFn pid card) = l₂ := by
    have h1 : ∀ q ∈ l₂, selCardFn pid card q = id q := by
      intro q hq
      rw [selCardFn, if_neg (by simp [hnotin2 q hq])]
      rfl
    rw [List.map_congr_left h1, List.map_id]
  have hsel : selectPlayerCard pid card (l₁ ++ p₀ :: l₂) =
      l₁ ++ selCardFn pid card p₀ :: l₂ := by
    rw [selectPlayerCard, List.map_append, List.map_cons, hmap1, hmap2]
  rw [hsel]
  have hbeq : (p₀.id == pid) = true := by simp [hpid]
  by_cases hct : p₀.holeCards.contains card = true
  · have heq : selCardFn pid card p₀ =
        { p₀ with holeCards := p₀.holeCards.filter (fun c => !(c == card)) } := by
      rw [selCardFn, if_pos hbeq, if_pos hct]
    rw [heq]
    refine List.Nodup.sublist ?_ hused
    rw [getUsedCards, getUsedCards]
    refine List.Sublist.append ?_ (List.Sublist.refl board)
    simp only [List.map_append, List.map_cons, List.flatten_append,
      List.flatten_cons]
    exact List.Sublist.append_left
      (List.Sublist.append (List.filter_sublist _) (List.Sublist.refl _)) _
  · by_cases hlt : p₀.holeCards.length < 2
    · have heq : selCardFn pid card p₀ =
          { p₀ with holeCards := p₀.holeCards ++ [card] } := by
        rw [selCardFn, if_pos hbeq, if_neg hct, if_pos hlt]
      rw [heq]
      have havail : card ∉ getUsedCards (l₁ ++ p₀ :: l₂) board := by
        rcases hgate with h | ⟨p, hp, hpid2, hcard⟩
        · rw [isCardAvailable, Bool.not_eq_true'] at h
          intro hmem
          have h2 : (getUsedCards (l₁ ++ p₀ :: l₂) board).contains card = true :=
            List.elem_iff.mpr hmem
          rw [h2] at h
          cases h
        · exfalso
          rcases List.mem_append.mp hp with h1 | h1
          · exact hnotin1 p h1 hpid2
          · rcases List.mem_cons.mp h1 with rfl | h1
            · exact hct (List.elem_iff.mpr hcard)
            · exact hnotin2 p h1 hpid2
      rw [List.nodup_iff_count_le_one] at hused ⊢
      intro x
      have hold := hused x
      have hzero : List.count card (getUsedCards (l₁ ++ p₀ :: l₂) board) = 0 :=
        List.count_eq_zero.mpr havail
      simp only [getUsedCards, List.map_append, List.map_cons,
        List.flatten_append, List.flatten_cons, List.count_append,
        List.count_singleton] at hold hzero ⊢
      by_cases hx : (card == x) = true
      · have hxeq : card = x := beq_iff_eq.mp hx
        subst hxeq
        simp only [if_pos hx]
        omega
      · simp only [if_neg hx]
        omega
    · have heq : selCardFn pid card p₀ = p₀ := by
        rw [selCardFn, if_pos hbeq, if_neg hct, if_neg hlt]
      rw [heq]
      exact hused

theorem addPlayer_used (ps : List Player) (board : List String) :
    getUsedCards (addPlayer ps) board = getUsedCards ps board := by
  rw [addPlayer]
  by_cases h : ps.length < 6
  · rw [if_pos h, getUsedCards, getUsedCards, List.map_append]
    simp [List.flatten_append]
  · rw [if_neg h]

theorem removePlayer_used_sublist (pid : String) (ps : List Player)
    (board : List String) :
    (getUsedCards (removePlayer pid ps) board).Sublist (getUsedCards ps board) := by
  rw [removePlayer]
  by_cases h : 2 < ps.length
  · rw [if_pos h, getUsedCards, getUsedCards]
    exact List.Sublist.append (flatten_map_sublist (List.filter_sublist ps))
      (List.Sublist.refl board)
  · rw [if_neg h]

theorem updatePlayerName_used (pid nm : String) (ps : List Player)
    (board : List String) :
    getUsedCards (updatePlayerName pid nm ps) board = getUsedCards ps board := by
  rw [getUsedCards, getUsedCards, updatePlayerName, List.map_map]
  have h1 : ∀ p ∈ ps,
      (Player.holeCards ∘ fun p => if p.id == pid then { p with name := nm } else p) p =
        Player.holeCards p := by
    intro p _
    by_cases h : (p.id == pid) = true
    · simp [Function.comp, h]
    · simp [Function.comp, h]
  rw [List.map_congr_left h1]

theorem updateNameFn_id (pid nm : String) (p : Player) :
    (if p.id == pid then { p with name := nm } else p).id = p.id := by
  by_cases h : (p.id == pid) = true
  · rw [if_pos h]
  · rw [if_neg h]

theorem clearCardsFn_id (pid : String) (p : Player) :
    (if p.id == pid then { p with holeCards := [] } else p).id = p.id := by
  by_cases h : (p.id == pid) = true
  · rw [if_pos h]
  · rw [if_neg h]

theorem clearPlayerCards_used_sublist (pid : String) (ps : List Player)
    (board : List String) :
    (getUsedCards (clearPlayerCards pid ps) board).Sublist (getUsedCards ps board) := by
  rw [clearPlayerCards, getUsedCards, getUsedCards]
  refine List.Sublist.append (flatten_map_pointwise ?_) (List.Sublist.refl board)
  intro p _
  by_cases h : (p.id == pid) = true
  · rw [if_pos h]
    exact List.nil_sublist _
  · rw [if_neg h]

/-- The UI states reachable from the initial state through the component's
handlers, with card picks gated exactly as the picker buttons are: a card
button is enabled only when the card is available or currently selected in
that picker (`disabled={!available && !selected}`). -/
inductive Reachable : List Player × List String → Prop where
  | start : Reachable (initialPlayers, [])
  | add {s} : Reachable s → Reachable (addPlayer s.1, s.2)
  | remove {s} (pid : String) : Reachable s → Reachable (removePlayer pid s.1, s.2)
  | rename {s} (pid nm : String) : Reachable s →
      Reachable (updatePlayerName pid nm s.1, s.2)
  | pickPlayerCard {s} (pid card : String) : Reachable s →
      (isCardAvailable s.1 s.2 card = true ∨
        ∃ p ∈ s.1, p.id = pid ∧ card ∈ p.holeCards) →
      Reachable (selectPlayerCard pid card s.1, s.2)
  | pickBoardCard {s} (card : String) : Reachable s →
      (isCardAvailable s.1 s.2 card = true ∨ card ∈ s.2) →
      Reachable (s.1, selectBoardCard card s.2)
  | clearPlayer {s} (pid : String) : Reachable s →
      Reachable (clearPlayerCards pid s.1, s.2)
  | clearBoard {s} : Reachable s → Reachable (s.1, [])

/-- The invariant carried by every reachable UI state. -/
def StateInv (s : List Player × List String) : Prop :=
  (getUsedCards s.1 s.2).Nodup ∧ PlayersIdInv s.1

theorem reachable_stateInv {s : List Player × List String}
    (h : Reachable s) : StateInv s := by
  induction h with
  | start => exact ⟨by decide, by decide, by decide⟩
  | add _ ih =>
    exact ⟨by rw [addPlayer_used]; exact ih.1, addPlayer_id_inv ih.2⟩
  | remove pid _ ih =>
    exact ⟨List.Nodup.sublist (removePlayer_used_sublist pid _ _) ih.1,
      removePlayer_id_inv pid ih.2⟩
  | rename pid nm _ ih =>
    exact ⟨by rw [updatePlayerName_used]; exact ih.1,
      playersIdInv_map (updateNameFn_id pid nm) ih.2⟩
  | pickPlayerCard pid card _ hgate ih =>
    exact ⟨selectPlayerCard_nodup pid card ih.1 ih.2.1 hgate,
      playersIdInv_map (selCardFn_id pid card) ih.2⟩
  | pickBoardCard card _ hgate ih =>
    exact ⟨selectBoardCard_nodup card ih.1 hgate, ih.2⟩
  | clearPlayer pid _ ih =>
    exact ⟨List.Nodup.sublist (clearPlayerCards_used_sublist pid _ _) ih.1,
      playersIdInv_map (clearCardsFn_id pid) ih.2⟩
  | clearBoard _ ih =>
    refine ⟨?_, ih.2⟩
    refine List.Nodup.sublist ?_ ih.1
    rw [getUsedCards, getUsedCards, List.append_nil]
    exact List.sublist_append_left _ _

/-- Claim C8: `isCardAvailable` returns true exactly when the card appears in
no player's hole cards and not on the board, and every UI state built through
the availability-gated pickers keeps the union of assigned cards free of
duplicates. -/
theorem isCardAvailable_iff_unused :
    (∀ (players : List Player) (board : List String) (card : String),
        isCardAvailable players board card = true ↔
          (∀ p ∈ players, card ∉ p.holeCards) ∧ card ∉ board) ∧
    ∀ s, Reachable s → (getUsedCards s.1 s.2).Nodup := by
  constructor
  · intro players board card
    have hmem : isCardAvailable players board card = true ↔
        card ∉ getUsedCards players board := by
      rw [isCardAvailable, Bool.not_eq_true']
      constructor
      · intro h hmem
        have h2 : (getUsedCards players board).contains card = true :=
          List.elem_iff.mpr hmem
        exact Bool.noConfusion (h2.symm.trans h)
      · intro h
        rcases hc : (getUsedCards players board).contains card with hf | ht
        · rfl
        · exact absurd (List.elem_iff.mp hc) h
    rw [hmem, getUsedCards]
    constructor
    · intro h
      refine ⟨fun p hp hmem =>
          h (List.mem_append.mpr (Or.inl (List.mem_flatten.mpr
            ⟨p.holeCards, List.mem_map.mpr ⟨p, hp, rfl⟩, hmem⟩))),
        fun hb => h (List.mem_append.mpr (Or.inr hb))⟩
    · rintro ⟨h1, h2⟩ hmem
      rcases List.mem_append.mp hmem with hm | hm
      · obtain ⟨l, hl, hcl⟩ := List.mem_flatten.mp hm
        obtain ⟨p, hp, rfl⟩ := List.mem_map.mp hl
        exact h1 p hp hcl
      · exact h2 hm
  · intro s h
    exact (reachable_stateInv h).1

/-- Witness for C8: the initial state extended by one gated pick of "Ah" for
player "1" has duplicate-free used cards, and availability of "Ah" in the
initial state is resolved by the equivalence. -/
theorem isCardAvailable_iff_unused_witness :
    (getUsedCards (selectPlayerCard "1" "Ah" initialPlayers) []).Nodup ∧
    (isCardAvailable initialPlayers [] "Ah" = true ↔
      (∀ p ∈ initialPlayers, "Ah" ∉ p.holeCards) ∧ "Ah" ∉ ([] : List String)) :=
  ⟨isCardAvailable_iff_unused.2 _
      (Reachable.pickPlayerCard "1" "Ah" Reachable.start (Or.inl (by decide))),
    isCardAvailable_iff_unused.1 initialPlayers [] "Ah"⟩

/-!
The backend equity engine (Python, FastAPI) is not part of the available
sources; only its frontend caller is.  The Result Aggregator and the request
validation below are therefore modelled from the spec (§4.3-§4.5, §6-§8) and
the claims about them are settled against these models.  An iteration is
represented by its joint-winner set (the players achieving the maximum hand
rank for that completed board).
-/

/-- Modelled from the spec: per-player `win_count` of the missing Result
Aggregator — the number of iterations whose joint-winner set is exactly the
single player `p` (a lone winner). -/
def winCount (w : List (Finset ℕ)) (p : ℕ) : ℕ :=
  (w.filter (fun s => decide (s = {p}))).length

/-- Modelled from the spec: the tie credit of the missing Result Aggregator —
over every iteration in which `p` ties (shares the best hand with at least
one other player), one unit of credit split evenly among that iteration's
joint winners, with the group size recomputed per iteration. -/
def tieCredit (w : List (Finset ℕ)) (p : ℕ) : ℚ :=
  (w.map (fun s => if p ∈ s ∧ 2 ≤ s.card then ((s.card : ℚ))⁻¹ else 0)).sum

/-- Modelled from the spec: the equity share sum of the missing Result
Aggregator — each iteration awards `p` a `1/|winners|` share of the pot
whenever `p` is among the joint winners (a lone win awards 1). -/
def equityShareSum (w : List (Finset ℕ)) (p : ℕ) : ℚ :=
  (w.map (fun s => if p ∈ s then ((s.card : ℚ))⁻¹ else 0)).sum

/-- Modelled from the spec: `win_percentage = win_count / total_iterations × 100`. -/
def win_percentage (w : List (Finset ℕ)) (p : ℕ) : ℚ :=
  (winCount w p : ℚ) / (w.length : ℚ) * 100

/-- Modelled from the spec: `equity_percentage`, the player's average pot
share over all iterations scaled to a percentage. -/
def equity_percentage (w : List (Finset ℕ)) (p : ℕ) : ℚ :=
  equityShareSum w p / (w.length : ℚ) * 100

theorem length_filter_eq_sum (w : List (Finset ℕ)) (p : ℕ) :
    (((w.filter (fun s => decide (s = {p}))).length : ℚ)) =
      (w.map (fun s => if s = {p} then (1 : ℚ) else 0)).sum := by
  induction w with
  | nil => simp
  | cons s w ih =>
    by_cases h : s = {p}
    · rw [List.filter_cons, if_pos (by simp [h]), List.map_cons, List.sum_cons,
        if_pos h, List.length_cons]
      push_cast
      rw [ih]
      ring
    · rw [List.filter_cons, if_neg (by simp [h]), List.map_cons, List.sum_cons,
        if_neg h, ih, zero_add]

theorem share_decomp (s : Finset ℕ) (p : ℕ) :
    (if p ∈ s then ((s.card : ℚ))⁻¹ else 0) =
      (if s = {p} then (1 : ℚ) else 0) +
      (if p ∈ s ∧ 2 ≤ s.card then ((s.card : ℚ))⁻¹ else 0) := by
  by_cases hps : p ∈ s
  · by_cases hc : 2 ≤ s.card
    · have hne : s ≠ {p} := by
        intro he
        rw [he, Finset.card_singleton] at hc
        omega
      rw [if_pos hps, if_neg hne, if_pos ⟨hps, hc⟩, zero_add]
    · have hcard : s.card = 1 := by
        have h1 : 0 < s.card := Finset.card_pos.mpr ⟨p, hps⟩
        omega
      obtain ⟨a, ha⟩ := Finset.card_eq_one.mp hcard
      have hap : a = p := by
        rw [ha] at hps
        exact (Finset.mem_singleton.mp hps).symm
      have hsp : s = {p} := by rw [ha, hap]
      rw [if_pos hps, if_pos hsp, if_neg (fun hh => hc hh.2), add_zero, hcard]
      norm_num
  · have hne : s ≠ {p} := fun he => hps (he ▸ Finset.mem_singleton_self p)
    rw [if_neg hps, if_neg hne, if_neg (fun hh => hps hh.1), add_zero]

theorem equityShareSum_decomp (w : List (Finset ℕ)) (p : ℕ) :
    equityShareSum w p = (winCount w p : ℚ) + tieCredit w p := by
  rw [equityShareSum, tieCredit, winCount, length_filter_eq_sum]
  rw [List.map_congr_left (fun s _ => share_decomp s p)]
  exact List.sum_map_add

/-- Claim C6: for every completed simulation (list of per-iteration
joint-winner sets) and every player, `equity_percentage` equals
`win_percentage` plus the per-iteration tie credit — one unit split evenly
among each tying iteration's joint winners, group size recomputed every
iteration — averaged over the iteration count and scaled by 100. -/
theorem equity_eq_win_plus_tie_split (w : List (Finset ℕ)) (p : ℕ) :
    equity_percentage w p =
      win_percentage w p + tieCredit w p / (w.length : ℚ) * 100 := by
  rw [equity_percentage, win_percentage, equityShareSum_decomp]
  ring

/-- Modelled from the spec: the structured validation errors of the missing
backend engine (§7), with the board-length rejection of testable property
scenario 3. -/
inductive ValidationError where
  | invalidCardFormat
  | duplicateCardAssignment
  | invalidPlayerCount
  | invalidHoleCardCount
  | invalidIterationCount
  | invalidBoardLength
deriving DecidableEq

/-- Modelled from the spec: an equity request as consumed by the missing
backend — per player the hole-card tokens, the board tokens, and the
iteration count. -/
structure ScenarioReq where
  players : List (List String)
  board : List String
  iterations : ℕ

/-- Modelled from the spec: a card token is one rank character followed by
one suit character. -/
def isCardToken (s : String) : Bool :=
  match s.data with
  | [r, su] =>
    (['2', '3', '4', '5', '6', '7', '8', '9', 'T', 'J', 'Q', 'K', 'A'].contains r)
      && (['s', 'h', 'd', 'c'].contains su)
  | _ => false

/-- Modelled from the spec: the configured iteration bound (e.g. 1..100000). -/
def minIterations : ℕ := 1

/-- Modelled from the spec: the configured iteration ceiling. -/
def maxIterations : ℕ := 100000

/-- Modelled from the spec: a board may only have length 0, 3, 4, or 5. -/
def boardLengthValid (n : ℕ) : Bool :=
  n == 0 || n == 3 || n == 4 || n == 5

/-- Modelled from the spec: the fail-fast validation of the missing backend
engine; every error kind is detected before any simulation work begins. -/
def validateScenario (req : ScenarioReq) : Except ValidationError Unit :=
  if ¬ (req.players.all (fun hc => hc.all isCardToken)
      && req.board.all isCardToken) = true then
    Except.error ValidationError.invalidCardFormat
  else if ¬ (2 ≤ req.players.length ∧ req.players.length ≤ 6) then
    Except.error ValidationError.invalidPlayerCount
  else if ¬ (∀ hc ∈ req.players, hc.length = 2) then
    Except.error ValidationError.invalidHoleCardCount
  else if ¬ boardLengthValid req.board.length = true then
    Except.error ValidationError.invalidBoardLength
  else if ¬ (req.players.flatten ++ req.board).Nodup then
    Except.error ValidationError.duplicateCardAssignment
  else if ¬ (minIterations ≤ req.iterations ∧ req.iterations ≤ maxIterations) then
    Except.error ValidationError.invalidIterationCount
  else Except.ok ()

/-- Modelled from the spec: the missing backend engine run — validate, then
simulate the requested number of iterations (the per-iteration joint-winner
sets come from the sampling-and-evaluation oracle) and aggregate.  The second
component counts the simulated iterations actually run. -/
def runScenario (oracle : ℕ → Finset ℕ) (req : ScenarioReq) :
    Except ValidationError (ℕ → ℚ) × ℕ :=
  match validateScenario req with
  | Except.error e => (Except.error e, 0)
  | Except.ok _ =>
    (Except.ok (fun p =>
        equity_percentage ((List.range req.iterations).map oracle) p),
      req.iterations)

/-- Claim C5: a request whose board length is not 0, 3, 4, or 5 (for example
length 2) is rejected by validation before any simulation work begins: the
run returns a structured error and simulates zero iterations. -/
theorem invalid_board_length_rejected (oracle : ℕ → Finset ℕ)
    (req : ScenarioReq)
    (h : ¬ (req.board.length = 0 ∨ req.board.length = 3 ∨
        req.board.length = 4 ∨ req.board.length = 5)) :
    (∃ e, (runScenario oracle req).1 = Except.error e) ∧
    (runScenario oracle req).2 = 0 := by
  have hbl : ¬ boardLengthValid req.board.length = true := by
    intro hb
    apply h
    rw [boardLengthValid] at hb
    simp only [Bool.or_eq_true, beq_iff_eq] at hb
    tauto
  have hv : ∃ e, validateScenario req = Except.error e := by
    rw [validateScenario]
    by_cases h1 : ¬ ((req.players.all fun hc => hc.all isCardToken)
        && req.board.all isCardToken) = true
    · rw [if_pos h1]
      exact ⟨_, rfl⟩
    · rw [if_neg h1]
      by_cases h2 : ¬ (2 ≤ req.players.length ∧ req.players.length ≤ 6)
      · rw [if_pos h2]
        exact ⟨_, rfl⟩
      · rw [if_neg h2]
        by_cases h3 : ¬ ∀ hc ∈ req.players, hc.length = 2
        · rw [if_pos h3]
          exact ⟨_, rfl⟩
        · rw [if_neg h3, if_pos hbl]
          exact ⟨_, rfl⟩
  obtain ⟨e, he⟩ := hv
  constructor
  · exact ⟨e, by rw [runScenario, he]⟩
  · rw [runScenario, he]

/-- Witness for C5: a request with a 2-card board is rejected with zero
simulated iterations. -/
theorem invalid_board_length_rejected_witness :
    (∃ e, (runScenario (fun _ => {0})
        ⟨[["Ah", "Ad"], ["2c", "7d"]], ["Kh", "Qh"], 20000⟩).1 =
      Except.error e) ∧
    (runScenario (fun _ => {0})
        ⟨[["Ah", "Ad"], ["2c", "7d"]], ["Kh", "Qh"], 20000⟩).2 = 0 :=
  invalid_board_length_rejected (fun _ => {0})
    ⟨[["Ah", "Ad"], ["2c", "7d"]], ["Kh", "Qh"], 20000⟩ (by decide)

end PokerAnalysis
